import Mathlib

/-
Verification of the todo-list record service and its bounded expiring store.

The record service (GraphQL resolvers `todos`, `todosByType`, `todo`,
`addTodo`, `updateTodo`) is embedded from the server source
(src/unnamed/part_000).  The store it is layered on is the `lru-cache`
package instance `LRU({ max: 25, maxAge: 1000 * 60 * 5 })`; that package's
source is not part of this repository, so the store operations are modelled
from the specification's contract for the Bounded Expiring Store
(capacity-bounded map, per-entry absolute expiry deadline set at write time,
least-recently-used eviction, reads and writes both refreshing recency).

Time is a natural number of milliseconds; the recency order is the order of
the entry list, most-recently-used first, so the least-recently-used entry
is the last element.
-/

set_option autoImplicit false

namespace TodoStore

/-- A todo record `{id, type, description}`, the object built and cached by
the resolvers in src/unnamed/part_000. -/
structure Todo where
  id : String
  type : String
  description : String
deriving DecidableEq, Repr

/-- Modelled from the spec: one entry of the Bounded Expiring Store (the
`lru-cache` instance; the package source is not in this repository).  An
entry carries its key, the stored record, and the absolute expiry deadline
"write time + D" fixed at write time. -/
structure Entry where
  key : String
  value : Todo
  expiry : Nat
deriving DecidableEq, Repr

/-- Modelled from the spec: the Bounded Expiring Store.  `max` is the
capacity N, `maxAge` the time-to-live D, and `entries` the live map in
recency order, most-recently-used first (the reference instance uses
N = 25, D = 5 minutes). -/
structure Store where
  max : Nat
  maxAge : Nat
  entries : List Entry
deriving DecidableEq, Repr

/-- The store at process start: no entries. -/
def Store.empty (max maxAge : Nat) : Store := ⟨max, maxAge, []⟩

/-- The keys of the store's entries, in recency order. -/
def Store.keys (s : Store) : List String := s.entries.map Entry.key

/-- Modelled from the spec: an entry is live at time `now` while less than
the time-to-live has elapsed since its last write, i.e. strictly before its
absolute expiry deadline. -/
def Entry.liveAt (now : Nat) (e : Entry) : Bool := decide (now < e.expiry)

/-- Modelled from the spec: `put(id, record)` (the cache's `set`).  It
replaces any entry at the key, installs the new entry as most-recently-used
with expiry deadline `now + D`, and, should the insertion push the entry
count above the capacity, trims from the least-recently-used end. -/
def Store.put (s : Store) (now : Nat) (k : String) (v : Todo) : Store :=
  { s with entries :=
      ((⟨k, v, now + s.maxAge⟩ : Entry) :: s.entries.filter (fun e => e.key != k)).take s.max }

/-- Modelled from the spec: `get(id)`.  Returns the record at the key if
present and not expired, refreshing its recency to most-recently-used; an
expired entry is lazily purged and an explicit absent result returned.  The
second component is the store after the access. -/
def Store.get (s : Store) (now : Nat) (k : String) : Option Todo × Store :=
  match s.entries.find? (fun e => e.key == k) with
  | none => (none, s)
  | some e =>
      if now < e.expiry then
        (some e.value, { s with entries := e :: s.entries.filter (fun x => x.key != k) })
      else
        (none, { s with entries := s.entries.filter (fun x => x.key != k) })

/-- Modelled from the spec: `list()`, the iteration underlying the cache's
`forEach`.  It yields the currently live (non-expired) records, filtering
liveness at call time and mutating no recency rank. -/
def Store.list (s : Store) (now : Nat) : List Todo :=
  (s.entries.filter (Entry.liveAt now)).map Entry.value

/-- The `todos` query resolver: pushes every entry produced by the cache
iteration into a list (src/unnamed/part_000, `Query.todos`). -/
def todos (s : Store) (now : Nat) : List Todo := s.list now

/-- The `todosByType` query resolver: pushes an entry produced by the cache
iteration exactly when `type === entry.type`
(src/unnamed/part_000, `Query.todosByType`). -/
def todosByType (s : Store) (now : Nat) (ty : String) : List Todo :=
  ((s.entries.filter (Entry.liveAt now)).filter (fun e => ty == e.value.type)).map Entry.value

/-- The `todo` query resolver: returns `cache.get(id)`
(src/unnamed/part_000, `Query.todo`). -/
def todo (s : Store) (now : Nat) (id : String) : Option Todo × Store := s.get now id

/-- The `addTodo` mutation resolver (src/unnamed/part_000).  After the
artificial delay it throws when `type === "fail"`, leaving the store
untouched; otherwise it builds `{id, type, description}` from a freshly
generated id (the generated id is passed in as `newId`, since `shortid`'s
`generate` is an external source of fresh identifiers), caches it under that
id and returns it.  The pair is (thrown error or returned record, store
after the call). -/
def addTodo (s : Store) (now : Nat) (newId ty desc : String) :
    Except String Todo × Store :=
  if ty = "fail" then (Except.error "failed on type === fail", s)
  else
    let t : Todo := ⟨newId, ty, desc⟩
    (Except.ok t, s.put now newId t)

/-- The `updateTodo` mutation resolver (src/unnamed/part_000).  After the
artificial delay it throws when `type === "fail"`, leaving the store
untouched; otherwise it builds `{id, type, description}` from the
caller-supplied id, caches it under that id and returns it. -/
def updateTodo (s : Store) (now : Nat) (id ty desc : String) :
    Except String Todo × Store :=
  if ty = "fail" then (Except.error "failed on type === fail", s)
  else
    let t : Todo := ⟨id, ty, desc⟩
    (Except.ok t, s.put now id t)

/-- A sequence of `put` calls issued at one time, in order. -/
def putSeq (s : Store) (now : Nat) (ps : List (String × Todo)) : Store :=
  ps.foldl (fun st p => st.put now p.1 p.2) s

/-- The store states reachable through the service: from the empty store by
`addTodo`, `updateTodo` and `todo` (the `get`-backed resolver; the list
queries do not mutate the store). -/
inductive Reachable : Store → Prop
  | empty (max maxAge : Nat) : Reachable (Store.empty max maxAge)
  | add {s : Store} (now : Nat) (newId ty desc : String) :
      Reachable s → Reachable (addTodo s now newId ty desc).2
  | upd {s : Store} (now : Nat) (id ty desc : String) :
      Reachable s → Reachable (updateTodo s now id ty desc).2
  | query {s : Store} (now : Nat) (id : String) :
      Reachable s → Reachable (todo s now id).2

/-! ### Basic lemmas about the store operations -/

lemma string_beq_comm (a b : String) : (a == b) = (b == a) := by
  by_cases h : a = b
  · subst h; rfl
  · rw [beq_eq_false_iff_ne.mpr h, beq_eq_false_iff_ne.mpr (Ne.symm h)]

lemma filter_ne_of_not_mem (l : List Entry) (k : String) (h : k ∉ l.map Entry.key) :
    l.filter (fun e => e.key != k) = l := by
  apply List.filter_eq_self.mpr
  intro e he
  simp only [bne_iff_ne, ne_eq]
  intro hek
  exact h (hek ▸ List.mem_map_of_mem Entry.key he)

lemma length_filter_ne_of_nodup (l : List Entry) (k : String)
    (hnd : (l.map Entry.key).Nodup) (hm : k ∈ l.map Entry.key) :
    (l.filter (fun e => e.key != k)).length + 1 = l.length := by
  induction l with
  | nil => simp at hm
  | cons e rest ih =>
      simp only [List.map_cons, List.nodup_cons] at hnd
      by_cases hek : e.key = k
      · have : rest.filter (fun x => x.key != k) = rest :=
          filter_ne_of_not_mem rest k (hek ▸ hnd.1)
        simp [List.filter_cons, hek, this]
      · have hm' : k ∈ rest.map Entry.key := by
          rcases List.mem_map.mp hm with ⟨x, hx, hxk⟩
          rcases List.mem_cons.mp hx with h | h
          · exact absurd (h ▸ hxk) hek
          · exact hxk ▸ List.mem_map_of_mem Entry.key h
        have := ih hnd.2 hm'
        simp only [List.filter_cons, bne_iff_ne, ne_eq, hek, not_false_iff, decide_True,
          if_true, List.length_cons]
        omega

/-- C2: for every id, type and description, `addTodo`/`updateTodo` with type
`"fail"` throw the simulated-failure error and leave the store (hence every
`todos` result) exactly as before the call; with any other type neither
throws. -/
theorem addTodo_updateTodo_fail_sentinel (s : Store) (now : Nat)
    (newId id ty desc : String) :
    (ty = "fail" →
      (addTodo s now newId ty desc).1 = Except.error "failed on type === fail" ∧
      (addTodo s now newId ty desc).2 = s ∧
      (updateTodo s now id ty desc).1 = Except.error "failed on type === fail" ∧
      (updateTodo s now id ty desc).2 = s ∧
      (∀ t, todos (addTodo s now newId ty desc).2 t = todos s t) ∧
      (∀ t, todos (updateTodo s now id ty desc).2 t = todos s t)) ∧
    (ty ≠ "fail" →
      (∃ r, (addTodo s now newId ty desc).1 = Except.ok r) ∧
      (∃ r, (updateTodo s now id ty desc).1 = Except.ok r)) := by
  constructor
  · intro h; subst h; simp [addTodo, updateTodo]
  · intro h; simp [addTodo, updateTodo, h]

theorem addTodo_updateTodo_fail_sentinel_witness :
    (addTodo (Store.empty 25 300000) 0 "i1" "fail" "x").2 = Store.empty 25 300000 ∧
    (updateTodo (Store.empty 25 300000) 0 "j1" "fail" "x").2 = Store.empty 25 300000 :=
  ⟨((addTodo_updateTodo_fail_sentinel (Store.empty 25 300000) 0 "i1" "j1" "fail" "x").1
      rfl).2.1,
   ((addTodo_updateTodo_fail_sentinel (Store.empty 25 300000) 0 "i1" "j1" "fail" "x").1
      rfl).2.2.2.1⟩

lemma put_entries_cons (s : Store) (t : Nat) (k : String) (v : Todo) (hpos : 0 < s.max) :
    (s.put t k v).entries =
      (⟨k, v, t + s.maxAge⟩ : Entry) ::
        (s.entries.filter (fun e => e.key != k)).take (s.max - 1) := by
  obtain ⟨m, hm⟩ : ∃ m, s.max = m + 1 := ⟨s.max - 1, (Nat.succ_pred_eq_of_pos hpos).symm⟩
  simp [Store.put, hm]

lemma put_find_same (s : Store) (t : Nat) (k : String) (v : Todo) (hpos : 0 < s.max) :
    (s.put t k v).entries.find? (fun e => e.key == k) = some ⟨k, v, t + s.maxAge⟩ := by
  rw [put_entries_cons s t k v hpos]
  exact List.find?_cons_of_pos _ (by simp)

lemma put_get_spec (s : Store) (t tq : Nat) (k : String) (v : Todo) (hpos : 0 < s.max) :
    ((s.put t k v).get tq k).1 = if tq < t + s.maxAge then some v else none := by
  by_cases h : tq < t + s.maxAge
  · simp [Store.get, put_find_same s t k v hpos, h]
  · simp [Store.get, put_find_same s t k v hpos, h]

/-- C4: after `put` writes a key at time `t`, a `get` of that key at time
`tq` returns the explicit absent result once the time-to-live `D = maxAge`
has elapsed (`t + D ≤ tq`), even with no operation in between; before `D`
has elapsed (the entry sits most-recently-used, so it is not evicted) the
`get` returns the stored record. -/
theorem get_absent_after_ttl (s : Store) (t tq : Nat) (k : String) (v : Todo)
    (hpos : 0 < s.max) :
    (t + s.maxAge ≤ tq → ((s.put t k v).get tq k).1 = none) ∧
    (tq < t + s.maxAge → ((s.put t k v).get tq k).1 = some v) := by
  constructor
  · intro h
    rw [put_get_spec s t tq k v hpos, if_neg (by omega)]
  · intro h
    rw [put_get_spec s t tq k v hpos, if_pos h]

theorem get_absent_after_ttl_witness :
    (0 + 300000 ≤ 300000 →
      (((Store.empty 25 300000).put 0 "a" ⟨"a", "work", "milk"⟩).get 300000 "a").1 = none) ∧
    (299999 < 0 + 300000 →
      (((Store.empty 25 300000).put 0 "a" ⟨"a", "work", "milk"⟩).get 299999 "a").1 =
        some ⟨"a", "work", "milk"⟩) := by
  have h1 := (get_absent_after_ttl (Store.empty 25 300000) 0 300000 "a"
    ⟨"a", "work", "milk"⟩ (by decide)).1
  have h2 := (get_absent_after_ttl (Store.empty 25 300000) 0 299999 "a"
    ⟨"a", "work", "milk"⟩ (by decide)).2
  exact ⟨h1, h2⟩

/-- C8: `todosByType` is exactly `todos` (the live records) filtered by
case-sensitive string equality of the `type` field: the two agree as lists,
membership in the result is membership among live records with the matching
type, and the result is empty when no live record matches. -/
theorem todosByType_eq_filter_todos (s : Store) (now : Nat) (ty : String) :
    todosByType s now ty = (todos s now).filter (fun r => r.type == ty) ∧
    (∀ r : Todo, r ∈ todosByType s now ty ↔ r ∈ todos s now ∧ r.type = ty) ∧
    ((∀ r ∈ todos s now, r.type ≠ ty) → todosByType s now ty = []) := by
  have hmain : todosByType s now ty = (todos s now).filter (fun r => r.type == ty) := by
    unfold todosByType todos Store.list
    rw [List.filter_map]
    congr 1
    apply List.filter_congr
    intro e _
    exact (string_beq_comm ty e.value.type).trans rfl
  refine ⟨hmain, ?_, ?_⟩
  · intro r
    rw [hmain, List.mem_filter]
    simp [beq_iff_eq]
  · intro hnone
    rw [hmain, List.filter_eq_nil_iff]
    intro r hr
    simp [beq_iff_eq]
    exact hnone r hr

lemma putSeq_entries (now : Nat) (ps : List (String × Todo)) :
    ∀ s : Store, s.entries.length + ps.length ≤ s.max →
      (ps.map Prod.fst).Nodup → (∀ p ∈ ps, p.1 ∉ s.keys) →
      (putSeq s now ps).entries =
        (ps.map (fun p => (⟨p.1, p.2, now + s.maxAge⟩ : Entry))).reverse ++ s.entries := by
  induction ps with
  | nil => intro s _ _ _; simp [putSeq]
  | cons p rest ih =>
      intro s hlen hnd hdisj
      simp only [List.map_cons, List.nodup_cons] at hnd
      have hkeyfresh : p.1 ∉ s.keys := hdisj p (List.mem_cons_self p rest)
      have hfilter : s.entries.filter (fun e => e.key != p.1) = s.entries :=
        filter_ne_of_not_mem s.entries p.1 hkeyfresh
      have hput : (s.put now p.1 p.2).entries =
          (⟨p.1, p.2, now + s.maxAge⟩ : Entry) :: s.entries := by
        simp only [Store.put, hfilter]
        apply List.take_of_length_le
        simp only [List.length_cons]
        simp only [List.length_cons] at hlen
        omega
      have hrec := ih (s.put now p.1 p.2)
        (by
          have hmax : (s.put now p.1 p.2).max = s.max := rfl
          rw [hput, hmax, List.length_cons]
          simp only [List.length_cons] at hlen
          omega)
        hnd.2
        (by
          intro q hq
          have hqne : q.1 ≠ p.1 := fun h => hnd.1 (h ▸ List.mem_map_of_mem Prod.fst hq)
          have hqs : q.1 ∉ s.keys := hdisj q (List.mem_cons_of_mem p hq)
          simp only [Store.keys, hput, List.map_cons, List.mem_cons]
          rintro (h | h)
          · exact hqne h
          · exact hqs h)
      have hage : (s.put now p.1 p.2).maxAge = s.maxAge := rfl
      rw [putSeq, List.foldl_cons]
      rw [putSeq] at hrec
      rw [hrec, hage, hput]
      simp [List.reverse_cons, List.append_assoc]

/-- C3: starting from the empty store, a sequence of `put` calls with
pairwise-distinct keys whose length does not exceed the capacity, issued and
listed at one time (so no key has expired, the time-to-live being positive),
yields a `list()` holding exactly the written records, each the value
written for its key. -/
theorem putSeq_list_exact (max maxAge now : Nat) (ps : List (String × Todo))
    (hlen : ps.length ≤ max) (hnd : (ps.map Prod.fst).Nodup) (hage : 0 < maxAge) :
    (putSeq (Store.empty max maxAge) now ps).list now = (ps.map Prod.snd).reverse := by
  have hE := putSeq_entries now ps (Store.empty max maxAge)
    (by simpa [Store.empty] using hlen) hnd (by simp [Store.empty, Store.keys])
  rw [Store.list, hE]
  simp only [Store.empty, List.append_nil]
  have hlive : ∀ e ∈ (ps.map (fun p => (⟨p.1, p.2, now + maxAge⟩ : Entry))).reverse,
      Entry.liveAt now e = true := by
    intro e he
    simp only [List.mem_reverse, List.mem_map] at he
    rcases he with ⟨q, _, rfl⟩
    simp [Entry.liveAt]
    omega
  rw [List.filter_eq_self.mpr hlive]
  simp [List.map_reverse, List.map_map, Function.comp]

theorem putSeq_list_exact_witness :
    (putSeq (Store.empty 3 10) 0
        [("a", ⟨"a", "work", "milk"⟩), ("b", ⟨"b", "home", "mow"⟩)]).list 0 =
      ([("a", (⟨"a", "work", "milk"⟩ : Todo)),
        ("b", ⟨"b", "home", "mow"⟩)].map Prod.snd).reverse :=
  putSeq_list_exact 3 10 0 _ (by decide) (by decide) (by decide)

lemma put_entries_of_mem (s : Store) (now : Nat) (k : String) (v : Todo)
    (hmem : k ∈ s.keys) (hnd : s.keys.Nodup) (hcap : s.entries.length ≤ s.max) :
    (s.put now k v).entries =
      (⟨k, v, now + s.maxAge⟩ : Entry) :: s.entries.filter (fun e => e.key != k) := by
  have hflen : (s.entries.filter (fun e => e.key != k)).length + 1 = s.entries.length :=
    length_filter_ne_of_nodup s.entries k hnd hmem
  simp only [Store.put]
  apply List.take_of_length_le
  simp only [List.length_cons]
  omega

/-- C5: a `put` to a key already present replaces the record at that key,
leaves the number of entries unchanged, and evicts nothing: every entry at
another key is kept exactly, and no entry at another key appears. -/
theorem put_existing_key_frame (s : Store) (now : Nat) (k : String) (v : Todo)
    (hmem : k ∈ s.keys) (hnd : s.keys.Nodup) (hcap : s.entries.length ≤ s.max) :
    (s.put now k v).entries.length = s.entries.length ∧
    (s.put now k v).entries.find? (fun e => e.key == k) = some ⟨k, v, now + s.maxAge⟩ ∧
    (∀ e ∈ s.entries, e.key ≠ k → e ∈ (s.put now k v).entries) ∧
    (∀ e ∈ (s.put now k v).entries, e.key ≠ k → e ∈ s.entries) := by
  have hflen : (s.entries.filter (fun e => e.key != k)).length + 1 = s.entries.length :=
    length_filter_ne_of_nodup s.entries k hnd hmem
  have hput := put_entries_of_mem s now k v hmem hnd hcap
  refine ⟨?_, ?_, ?_, ?_⟩
  · rw [hput]; simp only [List.length_cons]; omega
  · rw [hput]; exact List.find?_cons_of_pos _ (by simp)
  · intro e he hne
    rw [hput]
    exact List.mem_cons_of_mem _ (List.mem_filter.mpr ⟨he, by simpa [bne_iff_ne] using hne⟩)
  · intro e he hne
    rw [hput] at he
    rcases List.mem_cons.mp he with h | h
    · exact absurd (by rw [h]) hne
    · exact List.mem_of_mem_filter h

theorem put_existing_key_frame_witness :
    ((Store.mk 2 10 [⟨"a", ⟨"a", "w", "x"⟩, 10⟩, ⟨"b", ⟨"b", "h", "y"⟩, 10⟩]).put 1 "a"
        ⟨"a", "w2", "x2"⟩).entries.length =
      (Store.mk 2 10 [⟨"a", ⟨"a", "w", "x"⟩, 10⟩, ⟨"b", ⟨"b", "h", "y"⟩, 10⟩]).entries.length :=
  (put_existing_key_frame
    (Store.mk 2 10 [⟨"a", ⟨"a", "w", "x"⟩, 10⟩, ⟨"b", ⟨"b", "h", "y"⟩, 10⟩]) 1 "a"
    ⟨"a", "w2", "x2"⟩ (by decide) (by decide) (by decide)).1

/-- C6: with any type other than `"fail"` and any description, `addTodo`
returns the record built from the freshly generated identifier (modelled
from the spec as the non-empty `newId` argument, `shortid.generate` being
external): its `type` and `description` equal the arguments, its `id` is
the non-empty generated one, and an immediately following `todo` (getById)
query on that id returns the same record. -/
theorem addTodo_create_roundtrip (s : Store) (now : Nat) (newId ty desc : String)
    (hty : ty ≠ "fail") (hid : newId ≠ "") (hpos : 0 < s.max) (hage : 0 < s.maxAge) :
    (addTodo s now newId ty desc).1 = Except.ok ⟨newId, ty, desc⟩ ∧
    (Todo.mk newId ty desc).id = newId ∧
    (Todo.mk newId ty desc).type = ty ∧
    (Todo.mk newId ty desc).description = desc ∧
    (Todo.mk newId ty desc).id ≠ "" ∧
    (todo (addTodo s now newId ty desc).2 now newId).1 = some ⟨newId, ty, desc⟩ := by
  have hstore : (addTodo s now newId ty desc).2 = s.put now newId ⟨newId, ty, desc⟩ := by
    simp [addTodo, hty]
  refine ⟨by simp [addTodo, hty], rfl, rfl, rfl, hid, ?_⟩
  rw [hstore]
  unfold todo
  rw [put_get_spec s now now newId ⟨newId, ty, desc⟩ hpos, if_pos (by omega)]

theorem addTodo_create_roundtrip_witness :
    (addTodo (Store.empty 25 300000) 0 "Hk3x" "foo" "hello").1 =
      Except.ok ⟨"Hk3x", "foo", "hello"⟩ ∧
    (Todo.mk "Hk3x" "foo" "hello").id = "Hk3x" ∧
    (Todo.mk "Hk3x" "foo" "hello").type = "foo" ∧
    (Todo.mk "Hk3x" "foo" "hello").description = "hello" ∧
    (Todo.mk "Hk3x" "foo" "hello").id ≠ "" ∧
    (todo (addTodo (Store.empty 25 300000) 0 "Hk3x" "foo" "hello").2 0 "Hk3x").1 =
      some ⟨"Hk3x", "foo", "hello"⟩ :=
  addTodo_create_roundtrip (Store.empty 25 300000) 0 "Hk3x" "foo" "hello"
    (by decide) (by decide) (by decide) (by decide)

/-- C7: with a non-`"fail"` type, `updateTodo` returns `{id, type,
description}` built from the caller-supplied id; the record readable at
that id afterwards is exactly that one (type and description replaced, id
preserved); when the id was present the entry count is unchanged (no second
entry), and when it was absent a new entry is created under that
identifier. -/
theorem updateTodo_replace_or_create (s : Store) (now : Nat) (id ty desc : String)
    (hty : ty ≠ "fail") (hpos : 0 < s.max) (hage : 0 < s.maxAge) :
    (updateTodo s now id ty desc).1 = Except.ok ⟨id, ty, desc⟩ ∧
    (todo (updateTodo s now id ty desc).2 now id).1 = some ⟨id, ty, desc⟩ ∧
    (id ∈ s.keys → s.keys.Nodup → s.entries.length ≤ s.max →
      ((updateTodo s now id ty desc).2).entries.length = s.entries.length) ∧
    (id ∉ s.keys → id ∈ ((updateTodo s now id ty desc).2).keys) := by
  have hstore : (updateTodo s now id ty desc).2 = s.put now id ⟨id, ty, desc⟩ := by
    simp [updateTodo, hty]
  refine ⟨by simp [updateTodo, hty], ?_, ?_, ?_⟩
  · rw [hstore]
    unfold todo
    rw [put_get_spec s now now id ⟨id, ty, desc⟩ hpos, if_pos (by omega)]
  · intro hmem hnd hcap
    rw [hstore, put_entries_of_mem s now id ⟨id, ty, desc⟩ hmem hnd hcap]
    have := length_filter_ne_of_nodup s.entries id hnd hmem
    simp only [List.length_cons]
    omega
  · intro _
    rw [hstore]
    have hfind := put_find_same s now id ⟨id, ty, desc⟩ hpos
    have hmem := List.mem_of_find?_eq_some hfind
    exact List.mem_map_of_mem Entry.key hmem

theorem updateTodo_replace_or_create_witness :
    (updateTodo (Store.mk 25 300000 [⟨"a", ⟨"a", "w", "x"⟩, 300000⟩]) 1 "a" "bar" "nd").1 =
      Except.ok ⟨"a", "bar", "nd"⟩ ∧
    (todo (updateTodo (Store.mk 25 300000 [⟨"a", ⟨"a", "w", "x"⟩, 300000⟩])
        1 "a" "bar" "nd").2 1 "a").1 = some ⟨"a", "bar", "nd"⟩ ∧
    ((updateTodo (Store.mk 25 300000 [⟨"a", ⟨"a", "w", "x"⟩, 300000⟩])
        1 "a" "bar" "nd").2).entries.length =
      (Store.mk 25 300000 [⟨"a", ⟨"a", "w", "x"⟩, 300000⟩]).entries.length := by
  have h := updateTodo_replace_or_create
    (Store.mk 25 300000 [⟨"a", ⟨"a", "w", "x"⟩, 300000⟩]) 1 "a" "bar" "nd"
    (by decide) (by decide) (by decide)
  exact ⟨h.1, h.2.1, h.2.2.1 (by decide) (by decide) (by decide)⟩

/-- C1: on a store holding exactly N entries (keys distinct, each entry
keyed by its record's id, as the service maintains), a `put` of a record
under a key not present evicts exactly the least-recently-touched entry
(the last in recency order): the new entry list is the new record followed
by all old entries but that last one, the evicted key is gone, the evicted
record appears in no `list()` of the resulting store at any time, and every
other entry remains present. -/
theorem put_at_capacity_evicts_lru (s : Store) (now : Nat) (k : String) (v : Todo)
    (evicted : Entry)
    (hcap : s.entries.length = s.max) (hpos : 0 < s.max)
    (hfresh : k ∉ s.keys) (hnd : s.keys.Nodup)
    (hkeyid : ∀ e ∈ s.entries, e.key = e.value.id) (hvid : v.id = k)
    (hlast : s.entries.getLast? = some evicted) :
    (s.put now k v).entries = (⟨k, v, now + s.maxAge⟩ : Entry) :: s.entries.dropLast ∧
    evicted.key ∉ (s.put now k v).keys ∧
    (∀ t, evicted.value ∉ (s.put now k v).list t) ∧
    (∀ e ∈ s.entries.dropLast, e ∈ (s.put now k v).entries) := by
  have hne : s.entries ≠ [] := by
    intro h
    rw [h] at hcap
    simp only [List.length_nil] at hcap
    omega
  have hsplit : s.entries.dropLast ++ [evicted] = s.entries := by
    rw [List.getLast?_eq_getLast s.entries hne] at hlast
    have hev : s.entries.getLast hne = evicted := by
      injection hlast
    rw [← hev]
    exact List.dropLast_append_getLast hne
  have hevmem : evicted ∈ s.entries := by
    rw [← hsplit]
    exact List.mem_append_right _ (List.mem_singleton_self _)
  have hfilter : s.entries.filter (fun e => e.key != k) = s.entries :=
    filter_ne_of_not_mem s.entries k hfresh
  obtain ⟨m, hm⟩ : ∃ m, s.max = m + 1 := ⟨s.max - 1, (Nat.succ_pred_eq_of_pos hpos).symm⟩
  have hput : (s.put now k v).entries =
      (⟨k, v, now + s.maxAge⟩ : Entry) :: s.entries.dropLast := by
    simp only [Store.put, hfilter, hm, List.take_succ_cons]
    congr 1
    rw [List.dropLast_eq_take]
    congr 1
    omega
  have hkeynotin : evicted.key ∉ (s.entries.dropLast).map Entry.key := by
    have heq : (s.entries.dropLast).map Entry.key ++ [evicted.key] =
        s.entries.map Entry.key := by
      have := congrArg (List.map Entry.key) hsplit
      simpa using this
    have hnd2 : ((s.entries.dropLast).map Entry.key ++ [evicted.key]).Nodup := by
      rw [heq]
      exact hnd
    rcases List.nodup_append.mp hnd2 with ⟨_, _, hdisj⟩
    intro hmem
    exact hdisj hmem (List.mem_singleton_self _)
  have hkne : evicted.key ≠ k := fun h => hfresh (h ▸ List.mem_map_of_mem Entry.key hevmem)
  refine ⟨hput, ?_, ?_, ?_⟩
  · simp only [Store.keys, hput, List.map_cons, List.mem_cons]
    rintro (h | h)
    · exact hkne h
    · exact hkeynotin (by simpa using h)
  · intro t hmem
    simp only [Store.list, hput] at hmem
    rcases List.mem_map.mp hmem with ⟨e, hef, hev⟩
    have hecons : e ∈ (⟨k, v, now + s.maxAge⟩ : Entry) :: s.entries.dropLast :=
      List.mem_of_mem_filter hef
    rcases List.mem_cons.mp hecons with h | h
    · have : evicted.key = k := by
        have h1 : evicted.key = evicted.value.id := hkeyid evicted hevmem
        have h2 : v = evicted.value := by
          rw [← hev, h]
        rw [h1, ← h2, hvid]
      exact hkne this
    · have hes : e ∈ s.entries := (List.dropLast_sublist s.entries).subset h
      have h1 : e.key = evicted.key := by
        rw [hkeyid e hes, hkeyid evicted hevmem, hev]
      exact hkeynotin (h1 ▸ List.mem_map_of_mem Entry.key h)
  · intro e he
    rw [hput]
    exact List.mem_cons_of_mem _ he

theorem put_at_capacity_evicts_lru_witness :
    ((Store.mk 2 1000 [⟨"a", ⟨"a", "t", "A"⟩, 1000⟩, ⟨"b", ⟨"b", "t", "B"⟩, 1000⟩]).put
        0 "c" ⟨"c", "t", "C"⟩).entries =
      (⟨"c", ⟨"c", "t", "C"⟩,
          0 + (Store.mk 2 1000 [⟨"a", ⟨"a", "t", "A"⟩, 1000⟩,
            ⟨"b", ⟨"b", "t", "B"⟩, 1000⟩]).maxAge⟩ : Entry) ::
        (Store.mk 2 1000 [⟨"a", ⟨"a", "t", "A"⟩, 1000⟩,
          ⟨"b", ⟨"b", "t", "B"⟩, 1000⟩]).entries.dropLast ∧
    (⟨"b", ⟨"b", "t", "B"⟩, 1000⟩ : Entry).key ∉
      ((Store.mk 2 1000 [⟨"a", ⟨"a", "t", "A"⟩, 1000⟩, ⟨"b", ⟨"b", "t", "B"⟩, 1000⟩]).put
        0 "c" ⟨"c", "t", "C"⟩).keys := by
  have h := put_at_capacity_evicts_lru
    (Store.mk 2 1000 [⟨"a", ⟨"a", "t", "A"⟩, 1000⟩, ⟨"b", ⟨"b", "t", "B"⟩, 1000⟩])
    0 "c" ⟨"c", "t", "C"⟩ ⟨"b", ⟨"b", "t", "B"⟩, 1000⟩
    (by decide) (by decide) (by decide) (by decide) (by decide) (by decide) (by decide)
  exact ⟨h.1, h.2.1⟩

/-! ### Invariants of the reachable store states -/

/-- The invariant the service maintains on the store: every entry is keyed
by its own record's id, no stored record has type `"fail"`, keys are
pairwise distinct, and the entry count respects the capacity. -/
def GoodStore (s : Store) : Prop :=
  (∀ e ∈ s.entries, e.key = e.value.id ∧ e.value.type ≠ "fail") ∧
  s.keys.Nodup ∧ s.entries.length ≤ s.max

lemma keys_filter_ne_nodup (s : Store) (k : String) (hnd : s.keys.Nodup) :
    ((s.entries.filter (fun e => e.key != k)).map Entry.key).Nodup :=
  hnd.sublist ((List.filter_sublist s.entries).map Entry.key)

lemma not_mem_keys_filter_ne (l : List Entry) (k : String) :
    k ∉ (l.filter (fun e => e.key != k)).map Entry.key := by
  intro h
  rcases List.mem_map.mp h with ⟨e, he, hek⟩
  have := List.of_mem_filter he
  simp only [bne_iff_ne, ne_eq] at this
  exact this hek

lemma goodStore_put (s : Store) (now : Nat) (k : String) (v : Todo)
    (hg : GoodStore s) (hvid : v.id = k) (hvty : v.type ≠ "fail") :
    GoodStore (s.put now k v) := by
  obtain ⟨hprop, hnd, hcap⟩ := hg
  have hconsnd : (((⟨k, v, now + s.maxAge⟩ : Entry) ::
      s.entries.filter (fun e => e.key != k)).map Entry.key).Nodup := by
    simp only [List.map_cons, List.nodup_cons]
    exact ⟨not_mem_keys_filter_ne s.entries k, keys_filter_ne_nodup s k hnd⟩
  refine ⟨?_, ?_, ?_⟩
  · intro e he
    simp only [Store.put] at he
    have he' : e ∈ (⟨k, v, now + s.maxAge⟩ : Entry) ::
        s.entries.filter (fun e => e.key != k) := (List.take_sublist _ _).subset he
    rcases List.mem_cons.mp he' with h | h
    · subst h
      exact ⟨hvid.symm, hvty⟩
    · exact hprop e (List.mem_of_mem_filter h)
  · show ((s.put now k v).entries.map Entry.key).Nodup
    simp only [Store.put]
    rw [List.map_take]
    exact hconsnd.sublist (List.take_sublist _ _)
  · show (s.put now k v).entries.length ≤ (s.put now k v).max
    simp only [Store.put]
    exact (List.length_take_le _ _)

lemma goodStore_get (s : Store) (now : Nat) (k : String) (hg : GoodStore s) :
    GoodStore ((s.get now k).2) := by
  obtain ⟨hprop, hnd, hcap⟩ := hg
  unfold Store.get
  cases hf : s.entries.find? (fun e => e.key == k) with
  | none => exact ⟨hprop, hnd, hcap⟩
  | some e =>
      have hek : e.key = k := by simpa using List.find?_some hf
      have hem : e ∈ s.entries := List.mem_of_find?_eq_some hf
      have hkmem : k ∈ s.entries.map Entry.key := hek ▸ List.mem_map_of_mem Entry.key hem
      have hflen := length_filter_ne_of_nodup s.entries k hnd hkmem
      by_cases hl : now < e.expiry
      · simp only [if_pos hl]
        refine ⟨?_, ?_, ?_⟩
        · intro x hx
          rcases List.mem_cons.mp hx with h | h
          · exact hprop x (h ▸ hem)
          · exact hprop x (List.mem_of_mem_filter h)
        · show ((e :: s.entries.filter (fun x => x.key != k)).map Entry.key).Nodup
          simp only [List.map_cons, List.nodup_cons]
          exact ⟨hek ▸ not_mem_keys_filter_ne s.entries k, keys_filter_ne_nodup s k hnd⟩
        · show (e :: s.entries.filter (fun x => x.key != k)).length ≤ s.max
          simp only [List.length_cons]
          omega
      · simp only [if_neg hl]
        refine ⟨?_, ?_, ?_⟩
        · intro x hx
          exact hprop x (List.mem_of_mem_filter hx)
        · exact keys_filter_ne_nodup s k hnd
        · show (s.entries.filter (fun x => x.key != k)).length ≤ s.max
          omega

lemma reachable_goodStore {s : Store} (h : Reachable s) : GoodStore s := by
  induction h with
  | empty max maxAge =>
      exact ⟨by simp [Store.empty], by simp [Store.empty, Store.keys], by simp [Store.empty]⟩
  | @add s0 now newId ty desc _ ih =>
      by_cases hty : ty = "fail"
      · simpa [addTodo, hty] using ih
      · have heq : (addTodo s0 now newId ty desc).2 =
            Store.put s0 now newId ⟨newId, ty, desc⟩ := by
          simp [addTodo, hty]
        rw [heq]
        exact goodStore_put s0 now newId ⟨newId, ty, desc⟩ ih rfl hty
  | @upd s0 now id ty desc _ ih =>
      by_cases hty : ty = "fail"
      · simpa [updateTodo, hty] using ih
      · have heq : (updateTodo s0 now id ty desc).2 =
            Store.put s0 now id ⟨id, ty, desc⟩ := by
          simp [updateTodo, hty]
        rw [heq]
        exact goodStore_put s0 now id ⟨id, ty, desc⟩ ih rfl hty
  | @query s0 now id _ ih =>
      exact goodStore_get s0 now id ih

lemma get_some_mem (s : Store) (now : Nat) (k : String) (r : Todo)
    (h : (s.get now k).1 = some r) : ∃ e ∈ s.entries, e.key = k ∧ e.value = r := by
  unfold Store.get at h
  cases hf : s.entries.find? (fun e => e.key == k) with
  | none => rw [hf] at h; simp at h
  | some e =>
      rw [hf] at h
      by_cases hl : now < e.expiry
      · simp only [if_pos hl] at h
        refine ⟨e, List.mem_of_find?_eq_some hf, by simpa using List.find?_some hf, ?_⟩
        simpa using h
      · simp [if_neg hl] at h

/-- C9: in every store state reachable through the service (create, update
and get from the empty store) no live record has type `"fail"`: `todos`
returns no such record, `todosByType "fail"` is empty, and `todo` (getById)
never returns one — both write paths check the sentinel before writing. -/
theorem reachable_no_fail_records (s : Store) (h : Reachable s) (now : Nat) :
    (∀ r ∈ todos s now, r.type ≠ "fail") ∧
    todosByType s now "fail" = [] ∧
    (∀ id r, (todo s now id).1 = some r → r.type ≠ "fail") := by
  have hg := reachable_goodStore h
  have hlist : ∀ r ∈ todos s now, r.type ≠ "fail" := by
    intro r hr
    unfold todos Store.list at hr
    rcases List.mem_map.mp hr with ⟨e, he, rfl⟩
    exact (hg.1 e (List.mem_of_mem_filter he)).2
  refine ⟨hlist, ?_, ?_⟩
  · unfold todosByType
    rw [List.filter_eq_nil_iff.mpr, List.map_nil]
    intro e he
    have hne : e.value.type ≠ "fail" := (hg.1 e (List.mem_of_mem_filter he)).2
    simp only [beq_iff_eq]
    exact fun h => hne h.symm
  · intro id r hr
    rcases get_some_mem s now id r hr with ⟨e, he, _, rfl⟩
    exact (hg.1 e he).2

theorem reachable_no_fail_records_witness :
    todosByType (addTodo (Store.empty 25 300000) 0 "t1" "work" "milk").2 1 "fail" = [] :=
  (reachable_no_fail_records _
    (Reachable.add 0 "t1" "work" "milk" (Reachable.empty 25 300000)) 1).2.1

/-- C10: in every store state reachable through the service, each entry
sits under the key equal to its record's id, so any record returned by
`todo` (getById) carries exactly the queried id, and the ids of the records
listed by `todos` are pairwise distinct. -/
theorem reachable_key_eq_id (s : Store) (h : Reachable s) (now : Nat) :
    (∀ id r, (todo s now id).1 = some r → r.id = id) ∧
    ((todos s now).map Todo.id).Nodup := by
  have hg := reachable_goodStore h
  constructor
  · intro id r hr
    rcases get_some_mem s now id r hr with ⟨e, he, hek, rfl⟩
    exact ((hg.1 e he).1).symm.trans hek
  · have hmap : (todos s now).map Todo.id =
        (s.entries.filter (Entry.liveAt now)).map Entry.key := by
      unfold todos Store.list
      rw [List.map_map]
      apply List.map_congr_left
      intro e he
      exact ((hg.1 e (List.mem_of_mem_filter he)).1).symm
    rw [hmap]
    exact hg.2.1.sublist ((List.filter_sublist _).map Entry.key)

theorem reachable_key_eq_id_witness :
    ((todos (addTodo (Store.empty 25 300000) 0 "t1" "work" "milk").2 1).map Todo.id).Nodup :=
  (reachable_key_eq_id _
    (Reachable.add 0 "t1" "work" "milk" (Reachable.empty 25 300000)) 1).2

end TodoStore
